import Mathlib

set_option maxRecDepth 100000

/-!
Verification of the duplicate-file finder (`duplicates.py`).

The development shallowly embeds the source module: bytes are `Nat`
(values < 256), file contents are `List Nat`, the filesystem visible to
the program is a structure of total functions, and the pandas dataframe
operations used by the source (`duplicated(keep=False)`, `sort_values`,
`iloc` with a boolean mask, `drop_duplicates`) are embedded as explicit
list operations.  `hashlib.sha256` is embedded as a full executable
SHA-256 over byte lists; the incremental digest state of a `hashlib`
object is represented by the bytes fed to it so far, which is exactly
the documented observable semantics of `update`/`hexdigest`.
-/

/-! ## SHA-256 (embedding of `hashlib.sha256`) -/

/-- Word size modulus for 32-bit arithmetic. -/
def w32 : Nat := 4294967296

/-- Right rotation of a 32-bit word. -/
def rotr (k n : Nat) : Nat := ((n >>> k) ||| (n <<< (32 - k))) % w32

/-- Big sigma-0 of SHA-256. -/
def bsig0 (x : Nat) : Nat := (rotr 2 x) ^^^ (rotr 13 x) ^^^ (rotr 22 x)

/-- Big sigma-1 of SHA-256. -/
def bsig1 (x : Nat) : Nat := (rotr 6 x) ^^^ (rotr 11 x) ^^^ (rotr 25 x)

/-- Small sigma-0 of SHA-256. -/
def ssig0 (x : Nat) : Nat := (rotr 7 x) ^^^ (rotr 18 x) ^^^ (x >>> 3)

/-- Small sigma-1 of SHA-256. -/
def ssig1 (x : Nat) : Nat := (rotr 17 x) ^^^ (rotr 19 x) ^^^ (x >>> 10)

/-- Choice function of SHA-256 (complement taken inside 32 bits). -/
def ch (x y z : Nat) : Nat := (x &&& y) ^^^ ((x ^^^ (w32 - 1)) &&& z)

/-- Majority function of SHA-256. -/
def maj (x y z : Nat) : Nat := (x &&& y) ^^^ (x &&& z) ^^^ (y &&& z)

/-- The 64 SHA-256 round constants. -/
def K64 : List Nat :=
  [1116352408, 1899447441, 3049323471, 3921009573, 961987163, 1508970993,
   2453635748, 2870763221, 3624381080, 310598401, 607225278, 1426881987,
   1925078388, 2162078206, 2614888103, 3248222580, 3835390401, 4022224774,
   264347078, 604807628, 770255983, 1249150122, 1555081692, 1996064986,
   2554220882, 2821834349, 2952996808, 3210313671, 3336571891, 3584528711,
   113926993, 338241895, 666307205, 773529912, 1294757372, 1396182291,
   1695183700, 1986661051, 2177026350, 2456956037, 2730485921, 2820302411,
   3259730800, 3345764771, 3516065817, 3600352804, 4094571909, 275423344,
   430227734, 506948616, 659060556, 883997877, 958139571, 1322822218,
   1537002063, 1747873779, 1955562222, 2024104815, 2227730452, 2361852424,
   2428436474, 2756734187, 3204031479, 3329325298]

/-- The eight SHA-256 working registers. -/
structure Regs where
  a : Nat
  b : Nat
  c : Nat
  d : Nat
  e : Nat
  f : Nat
  g : Nat
  h : Nat

/-- Initial SHA-256 hash value. -/
def initRegs : Regs :=
  { a := 1779033703, b := 3144134277, c := 1013904242, d := 2773480762,
    e := 1359893119, f := 2600822924, g := 528734635, h := 1541459225 }

/-- One SHA-256 compression round. -/
def round1 (r : Regs) (k w : Nat) : Regs :=
  let t1 := (r.h + bsig1 r.e + ch r.e r.f r.g + k + w) % w32
  let t2 := (bsig0 r.a + maj r.a r.b r.c) % w32
  { a := (t1 + t2) % w32, b := r.a, c := r.b, d := r.c,
    e := (r.d + t1) % w32, f := r.e, g := r.f, h := r.g }

/-- Message-schedule extension: `rev` holds the schedule so far, newest first. -/
def wext (rev : List Nat) : Nat → List Nat
  | 0 => rev.reverse
  | n + 1 =>
      wext (((ssig1 (rev.getD 1 0) + rev.getD 6 0 + ssig0 (rev.getD 14 0) + rev.getD 15 0) % w32)
        :: rev) n

/-- Full 64-entry message schedule from the 16 words of a block. -/
def wsched (w16 : List Nat) : List Nat := wext w16.reverse 48

/-- Group bytes into 32-bit big-endian words. -/
def toWords : List Nat → List Nat
  | b0 :: b1 :: b2 :: b3 :: rest => (((b0 * 256 + b1) * 256 + b2) * 256 + b3) :: toWords rest
  | _ => []

/-- Compress one 64-byte block into the running hash value. -/
def compressBlock (hv : Regs) (block : List Nat) : Regs :=
  let ws := wsched (toWords block)
  let fin := (K64.zip ws).foldl (fun r kw => round1 r kw.1 kw.2) hv
  { a := (hv.a + fin.a) % w32, b := (hv.b + fin.b) % w32,
    c := (hv.c + fin.c) % w32, d := (hv.d + fin.d) % w32,
    e := (hv.e + fin.e) % w32, f := (hv.f + fin.f) % w32,
    g := (hv.g + fin.g) % w32, h := (hv.h + fin.h) % w32 }

/-- Big-endian 8-byte encoding of the message bit length. -/
def lenBytes (n : Nat) : List Nat :=
  [n >>> 56 % 256, n >>> 48 % 256, n >>> 40 % 256, n >>> 32 % 256,
   n >>> 24 % 256, n >>> 16 % 256, n >>> 8 % 256, n % 256]

/-- SHA-256 padding: a 0x80 byte, zeros to 56 mod 64, then the bit length. -/
def pad (msg : List Nat) : List Nat :=
  msg ++ 128 :: List.replicate ((119 - msg.length % 64) % 64) 0 ++ lenBytes (8 * msg.length)

/-- Split a byte list into 64-byte blocks; the fuel bounds the number of
blocks and is always supplied as the length of the list, which suffices. -/
def blocks64Fuel : Nat → List Nat → List (List Nat)
  | 0, _ => []
  | _, [] => []
  | fuel + 1, x :: xs => (x :: xs).take 64 :: blocks64Fuel fuel ((x :: xs).drop 64)

/-- Split a byte list into 64-byte blocks. -/
def blocks64 (l : List Nat) : List (List Nat) := blocks64Fuel l.length l

/-- The four big-endian bytes of a 32-bit word. -/
def wordBytes (w : Nat) : List Nat := [w >>> 24 % 256, w >>> 16 % 256, w >>> 8 % 256, w % 256]

/-- SHA-256 digest (32 bytes) of a byte list. -/
def sha256 (msg : List Nat) : List Nat :=
  let r := (blocks64 (pad msg)).foldl compressBlock initRegs
  wordBytes r.a ++ wordBytes r.b ++ wordBytes r.c ++ wordBytes r.d ++
    wordBytes r.e ++ wordBytes r.f ++ wordBytes r.g ++ wordBytes r.h

/-- The sixteen lowercase hexadecimal digit characters. -/
def hexChars : List Char := "0123456789abcdef".toList

/-- Lowercase hex digit of a nibble. -/
def hexChar (n : Nat) : Char := hexChars.getD (n % 16) '0'

/-- Lowercase hex encoding of a byte list (embedding of `hexdigest`). -/
def hexdigest (bytes : List Nat) : String :=
  String.mk (bytes.foldr (fun b acc => hexChar (b / 16) :: hexChar b :: acc) [])

/-! ## `hashfile` (chunked incremental hashing)

The source opens the file, then repeatedly reads blocks of
`block_size` bytes, feeding each into the incremental digest, until a
read returns no bytes.  The digest state of the `hashlib` object is
represented by the bytes fed so far (`acc`); the final digest is the
SHA-256 of that state.  The loop is embedded with fuel, always called
with more fuel than iterations are possible. -/

/-- The read-update loop of `hashfile`: `msg` is the unread remainder of
the file, `acc` the bytes already fed to the digest. -/
def hashfileLoop (bs : Nat) : Nat → List Nat → List Nat → List Nat
  | 0, _, acc => acc
  | fuel + 1, msg, acc =>
      let block := msg.take bs
      if block.isEmpty then acc
      else hashfileLoop bs fuel (msg.drop bs) (acc ++ block)

/-- Embedding of `hashfile(file, block_size=65536)`: `content` is the byte
content of the file at `file`. -/
def hashfile (content : List Nat) (block_size : Nat) : String :=
  hexdigest (sha256 (hashfileLoop block_size (content.length + 1) content []))

/-- Known-answer test: the SHA-256 of the empty message matches the
published vector. -/
theorem sha256_empty_vector :
    hexdigest (sha256 []) =
      "e3b0c44298fc1c149afbf4c8996fb92427ae41e4649b934ca495991b7852b855" := by
  decide

/-- Known-answer test: the SHA-256 of the three bytes of "abc" matches
the published vector. -/
theorem sha256_abc_vector :
    hexdigest (sha256 [97, 98, 99]) =
      "ba7816bf8f01cfea414140de5dae2223b00361a396177a9cb410ff61f20015ad" := by
  decide

/-! ## Filesystem model and the table pipeline

The filesystem visible to the program during one scan is a structure of
total functions on path strings.  `content p = none` models a file whose
`open`/`read` raises `OSError` (permission denied, name too long, file
vanished); `isfile` and `size` model `os.path.isfile` and
`os.path.getsize`.  Directory enumeration (`os.walk` in `filelist`) is
an external effect: the pipeline functions below take the enumerated
path list as an argument, as does the already-normalized root path
convention of the spec. -/

/-- The filesystem as seen by one scan invocation. -/
structure FS where
  isfile : String → Bool
  size : String → Nat
  content : String → Option (List Nat)

/-- The literal failure marker the source stores when hashing a file
raises `OSError`. -/
def sentinel : String := "No hash could be generated"

/-- The body of the `hashtable` loop for one file: `try` the hash,
`except OSError` store the sentinel. -/
def hashSlot (fs : FS) (f : String) : String :=
  match fs.content f with
  | some c => hashfile c 65536
  | none => sentinel

/-- The `hashtable` loop: walks the file list, extending the accumulator
with the digest or the sentinel; a failure never aborts the loop. -/
def hashtableLoop (fs : FS) : List String → List String → List String
  | [], acc => acc
  | f :: rest, acc => hashtableLoop fs rest (acc ++ [hashSlot fs f])

/-- Embedding of `hashtable(files)` on a list argument. -/
def hashtable (fs : FS) (files : List String) : List String :=
  hashtableLoop fs files []

/-- Embedding of `pandas.Series.duplicated(keep=False)`-based row
filtering: keep the rows whose key value occurs in at least two rows. -/
def dupKeepFalse {α β : Type} [DecidableEq β] (key : α → β) (t : List α) : List α :=
  t.filter (fun r => 2 ≤ t.countP (fun r2 => key r2 = key r))

/-- Lexicographic code-point comparison of char lists, the order Python
and pandas use on `str` values. -/
def lexLe : List Char → List Char → Bool
  | [], _ => true
  | _ :: _, [] => false
  | a :: as, b :: bs =>
      if a.toNat < b.toNat then true
      else if b.toNat < a.toNat then false
      else lexLe as bs

/-- String comparison by code points (Python `str` order). -/
def strLe (a b : String) : Bool := lexLe a.data b.data

/-- Stable insertion of an element into a sorted list, placing it before
the first strictly larger element. -/
def ordInsert {α : Type} (le : α → α → Bool) (a : α) : List α → List α
  | [] => [a]
  | b :: l => if le a b then a :: b :: l else b :: ordInsert le a l

/-- Stable insertion sort. -/
def insSort {α : Type} (le : α → α → Bool) : List α → List α
  | [] => []
  | b :: l => ordInsert le b (insSort le l)

/-- Embedding of `sort_values(by='hash')` on a (file, hash) table: sort
by the hash column.  The model sorts stably; the tie order of the
pandas default sort kind is not specified by the source. -/
def sort_values_hash (t : List (String × String)) : List (String × String) :=
  insSort (fun a b => strLe a.2 b.2) t

/-- Embedding of `preselect(input_files)`: keep the paths that are
currently regular files, build the (file, size) table, keep the rows
whose size occurs at least twice, and return the file column. -/
def preselect (fs : FS) (input_files : List String) : List String :=
  let checked_files := input_files.filter fs.isfile
  let recs := checked_files.map (fun f => (f, fs.size f))
  (dupKeepFalse Prod.snd recs).map Prod.fst

/-- Embedding of `create_table(folder, ext, pre)`: `files` is the list
`filelist(folder, ext)` produced by the enumeration; the result pairs
each input path with its `hashtable` slot. -/
def create_table (fs : FS) (files : List String) (pre : Bool) : List (String × String) :=
  let input_files := if pre then preselect fs files else files
  input_files.zip (hashtable fs input_files)

/-- Embedding of `list_all_duplicates(folder, ext, fastscan)` (the CSV
sink is an external collaborator and not modelled): build the table,
keep rows whose hash is duplicated, sort by hash. -/
def list_all_duplicates (fs : FS) (files : List String) (fastscan : Bool) :
    List (String × String) :=
  sort_values_hash (dupKeepFalse Prod.snd (create_table fs files fastscan))

/-- Embedding of `find_duplicates(file, folder)`: hash the single target
file (via `hashtable`, which wraps a non-list argument into a
one-element list), list all duplicates of the folder with default
`fastscan=False`, and keep the rows whose hash equals the target's.
The non-singleton branch of the `len(file_hash) == 1` test is
unreachable for a single path. -/
def find_duplicates (fs : FS) (target : String) (files : List String) :
    List (String × String) :=
  let file_hash := hashtable fs [target]
  let duplicate_files := list_all_duplicates fs files false
  match file_hash with
  | [h] => duplicate_files.filter (fun r => r.2 = h)
  | _ => []

/-- Embedding of `drop_duplicates(subset='file')`: keep the first row
for each file value, dropping later rows with the same file. -/
def dropDupFileLoop : List String → List (String × String) → List (String × String)
  | _, [] => []
  | seen, r :: rest =>
      if r.1 ∈ seen then dropDupFileLoop seen rest
      else r :: dropDupFileLoop (r.1 :: seen) rest

/-- Embedding of `drop_duplicates(subset='file')` from an empty seen set. -/
def drop_duplicates_file (t : List (String × String)) : List (String × String) :=
  dropDupFileLoop [] t

/-- Embedding of `compare_folders(reference_folder, compare_folder)`.
The source builds `ind_duplicates = [x == df_reference['hash'] for x in
df_compare['hash'].values]`, a list of boolean Series that pandas
coerces to a 2-D boolean mask of shape (rows of compare, rows of
reference); `df_compare.iloc[ind_duplicates]` then takes the mask's
`nonzero()[0]` row indices in row-major order, i.e. each compare row
repeated once per reference row with an equal hash, in compare order;
`drop_duplicates(subset='file')` then keeps the first occurrence per
path. -/
def compare_folders (fs : FS) (refFiles cmpFiles : List String) : List (String × String) :=
  let df_reference := create_table fs refFiles false
  let df_compare := create_table fs cmpFiles false
  let picked := df_compare.flatMap
    (fun r => List.replicate (df_reference.countP (fun s => s.2 = r.2)) r)
  drop_duplicates_file picked

/-! ## Path normalization (`format_path`)

`format_path(file)` is `os.path.abspath([file.replace('/', os.path.sep)][0])`.
The model is the POSIX (`posixpath`) branch of `os.path`: the separator
is `'/'`, so the `replace` call maps `'/'` to itself; `abspath` joins a
relative path onto the (always absolute) working directory and
normalizes.  Paths are char lists, and `posixpath.normpath`'s
component processing is embedded clause by clause. -/

/-- The path separator of the modelled (POSIX) system, `os.path.sep`. -/
def os_sep : Char := '/'

/-- Embedding of `file.replace('/', os.path.sep)`. -/
def pyReplaceSlash (s : List Char) : List Char :=
  s.map (fun c => if c = '/' then os_sep else c)

/-- Python `path.split('/')`. -/
def splitSlash : List Char → List (List Char)
  | [] => [[]]
  | c :: r =>
      if c = '/' then [] :: splitSlash r
      else
        match splitSlash r with
        | h :: t => (c :: h) :: t
        | [] => [[c]]

/-- Python `'/'.join(comps)`. -/
def joinSlash : List (List Char) → List Char
  | [] => []
  | [x] => x
  | x :: y :: t => x ++ '/' :: joinSlash (y :: t)

/-- The component loop of `posixpath.normpath`: skip empty and `'.'`
components; append a component unless it is a `'..'` that cancels
against a previous real component.  `acc` holds the kept components in
reverse. -/
def normComps (hasInit : Bool) : List (List Char) → List (List Char) → List (List Char)
  | [], acc => acc.reverse
  | comp :: rest, acc =>
      if comp = [] ∨ comp = ['.'] then normComps hasInit rest acc
      else if comp ≠ ['.', '.'] ∨ (hasInit = false ∧ acc = []) ∨ acc.head? = some ['.', '.'] then
        normComps hasInit rest (comp :: acc)
      else
        normComps hasInit rest acc.tail

/-- The `initial_slashes` count of `posixpath.normpath`: 0 for a
relative path, 2 for exactly two leading slashes, 1 otherwise. -/
def initialSlashes (s : List Char) : Nat :=
  if s.take 1 = ['/'] then
    if s.take 2 = ['/', '/'] ∧ ¬s.take 3 = ['/', '/', '/'] then 2 else 1
  else 0

/-- Embedding of `posixpath.normpath`. -/
def normpath (s : List Char) : List Char :=
  let ini := initialSlashes s
  let comps := normComps (ini != 0) (splitSlash s) []
  let res := List.replicate ini '/' ++ joinSlash comps
  if res = [] then ['.'] else res

/-- Python `posixpath.isabs`. -/
def isabs (s : List Char) : Bool := s.take 1 = ['/']

/-- Embedding of `posixpath.join` on two arguments. -/
def pjoin (a b : List Char) : List Char :=
  if isabs b then b
  else if a = [] ∨ a.getLast? = some '/' then a ++ b
  else a ++ '/' :: b

/-- Embedding of `posixpath.abspath`; `cwd` is `os.getcwd()`. -/
def abspath (cwd s : List Char) : List Char :=
  if isabs s then normpath s else normpath (pjoin cwd s)

/-- Embedding of `format_path(file)`. -/
def format_path (cwd file : List Char) : List Char :=
  abspath cwd (pyReplaceSlash file)

/-! ## Supporting lemmas: hashing -/

/-- With a positive block size and enough fuel, the read loop feeds the
whole remaining content to the digest. -/
theorem hashfileLoop_append (bs : Nat) (hbs : 0 < bs) :
    ∀ fuel msg acc, msg.length < fuel → hashfileLoop bs fuel msg acc = acc ++ msg := by
  intro fuel
  induction fuel with
  | zero => intro msg acc h; omega
  | succ n ih =>
      intro msg acc h
      simp only [hashfileLoop]
      by_cases hm : (msg.take bs).isEmpty
      · rw [if_pos hm]
        rcases List.take_eq_nil_iff.mp (List.isEmpty_iff.mp hm) with h0 | h0
        · omega
        · simp [h0]
      · rw [if_neg hm]
        have hmsg : msg ≠ [] := by
          intro h0
          simp [h0] at hm
        have hlen : 0 < msg.length := List.length_pos.mpr hmsg
        rw [ih (msg.drop bs) (acc ++ msg.take bs) (by simp [List.length_drop]; omega)]
        rw [List.append_assoc, List.take_append_drop]

/-- `hashfile` computes the digest of the full content: the chunked
incremental loop is equivalent to hashing the concatenation of all
chunks, i.e. the entire file. -/
theorem hashfile_eq_whole (c : List Nat) : hashfile c 65536 = hexdigest (sha256 c) := by
  unfold hashfile
  rw [hashfileLoop_append 65536 (by norm_num) _ c [] (by omega)]
  rfl

/-- Each byte of a word encoding is below 256. -/
theorem wordBytes_lt (w : Nat) : ∀ b ∈ wordBytes w, b < 256 := by
  intro b hb
  simp only [wordBytes, List.mem_cons, List.not_mem_nil, or_false] at hb
  rcases hb with rfl | rfl | rfl | rfl <;> exact Nat.mod_lt _ (by norm_num)

/-- A SHA-256 digest has 32 bytes. -/
theorem sha256_length (m : List Nat) : (sha256 m).length = 32 := by
  simp [sha256, wordBytes]

/-- Every byte of a SHA-256 digest is below 256. -/
theorem sha256_lt256 (m : List Nat) : ∀ b ∈ sha256 m, b < 256 := by
  intro b hb
  simp only [sha256, List.mem_append] at hb
  rcases hb with ((((((h | h) | h) | h) | h) | h) | h) | h <;> exact wordBytes_lt _ b h

/-- Whether a character is a lowercase hexadecimal digit. -/
def isLowerHex (c : Char) : Bool := c ∈ hexChars

/-- Unfolding of `hexdigest` on a cons. -/
theorem hexdigest_data_cons (b : Nat) (bs : List Nat) :
    (hexdigest (b :: bs)).data = hexChar (b / 16) :: hexChar b :: (hexdigest bs).data := rfl

/-- Unfolding of `hexdigest` on nil. -/
theorem hexdigest_data_nil : (hexdigest []).data = [] := rfl

/-- The hex encoding has two characters per byte. -/
theorem hexdigest_length (bs : List Nat) : (hexdigest bs).length = 2 * bs.length := by
  induction bs with
  | nil => rfl
  | cons b t ih =>
      show (hexdigest (b :: t)).data.length = 2 * (b :: t).length
      rw [hexdigest_data_cons]
      simp only [List.length_cons]
      have : (hexdigest t).data.length = 2 * t.length := ih
      omega

/-- Every `hexChar` is one of the sixteen digit characters. -/
theorem hexChar_mem (n : Nat) : hexChar n ∈ hexChars := by
  have hlt : n % 16 < hexChars.length := Nat.mod_lt _ (by norm_num)
  rw [hexChar, List.getD_eq_getElem hexChars '0' hlt]
  exact List.getElem_mem hlt

/-- Every character of a hex encoding is a lowercase hex digit. -/
theorem hexdigest_lower (bs : List Nat) : ∀ c ∈ (hexdigest bs).data, isLowerHex c = true := by
  induction bs with
  | nil => intro c hc; simp [hexdigest_data_nil] at hc
  | cons b t ih =>
      intro c hc
      rw [hexdigest_data_cons] at hc
      simp only [List.mem_cons] at hc
      rcases hc with rfl | rfl | hc
      · exact decide_eq_true (hexChar_mem _)
      · exact decide_eq_true (hexChar_mem _)
      · exact ih c hc

/-- `hexChar` is injective on nibbles. -/
theorem hexChar_inj {a b : Nat} (ha : a < 16) (hb : b < 16) (h : hexChar a = hexChar b) :
    a = b := by
  have key : ∀ x : Fin 16, ∀ y : Fin 16, hexChar x.val = hexChar y.val → x = y := by decide
  have := key ⟨a, ha⟩ ⟨b, hb⟩ h
  exact congrArg Fin.val this

/-- The hex encoding is injective on lists of bytes. -/
theorem hexdigest_inj : ∀ xs ys : List Nat, (∀ b ∈ xs, b < 256) → (∀ b ∈ ys, b < 256) →
    hexdigest xs = hexdigest ys → xs = ys := by
  intro xs
  induction xs with
  | nil =>
      intro ys _ _ h
      cases ys with
      | nil => rfl
      | cons y t =>
          have := congrArg String.data h
          rw [hexdigest_data_nil, hexdigest_data_cons] at this
          exact absurd this (by simp)
  | cons x xs ih =>
      intro ys hx hy h
      cases ys with
      | nil =>
          have := congrArg String.data h
          rw [hexdigest_data_nil, hexdigest_data_cons] at this
          exact absurd this (by simp)
      | cons y t =>
          have hd := congrArg String.data h
          rw [hexdigest_data_cons, hexdigest_data_cons] at hd
          have h1 : hexChar (x / 16) = hexChar (y / 16) := by
            exact (List.cons.injEq _ _ _ _ ▸ hd).1
          have hrest := (List.cons.injEq _ _ _ _ ▸ hd).2
          have h2 : hexChar x = hexChar y := (List.cons.injEq _ _ _ _ ▸ hrest).1
          have h3 : (hexdigest xs).data = (hexdigest t).data :=
            (List.cons.injEq _ _ _ _ ▸ hrest).2
          have hx0 : x < 256 := hx x (List.mem_cons_self x xs)
          have hy0 : y < 256 := hy y (List.mem_cons_self y t)
          have e1 : x / 16 = y / 16 := hexChar_inj (by omega) (by omega) h1
          have hxm : hexChar (x % 16) = hexChar x := by
            have hmx : x % 16 % 16 = x % 16 := by omega
            simp [hexChar, hmx]
          have hym : hexChar (y % 16) = hexChar y := by
            have hmy : y % 16 % 16 = y % 16 := by omega
            simp [hexChar, hmy]
          have e2 : x % 16 = y % 16 := by
            refine hexChar_inj (Nat.mod_lt _ (by norm_num)) (Nat.mod_lt _ (by norm_num)) ?_
            rw [hxm, hym, h2]
          have exy : x = y := by omega
          have ht : xs = t := by
            refine ih t (fun b hb => hx b (List.mem_cons_of_mem _ hb))
              (fun b hb => hy b (List.mem_cons_of_mem _ hb)) ?_
            exact String.ext h3
          rw [exy, ht]

/-- A `hashfile` result is a 64-character string. -/
theorem hashfile_length (c : List Nat) : (hashfile c 65536).length = 64 := by
  rw [hashfile_eq_whole, hexdigest_length, sha256_length]

/-- No `hashfile` result equals the failure sentinel: the sentinel is not
a 64-character string. -/
theorem hashfile_ne_sentinel (c : List Nat) : hashfile c 65536 ≠ sentinel := by
  intro h
  have h1 : (hashfile c 65536).length = 64 := hashfile_length c
  have h2 : sentinel.length = 26 := rfl
  rw [h] at h1
  omega

/-! ## Supporting lemmas: tables and sorting -/

/-- The `hashtable` loop maps `hashSlot` over the files, in order. -/
theorem hashtableLoop_eq (fs : FS) :
    ∀ files acc, hashtableLoop fs files acc = acc ++ files.map (hashSlot fs) := by
  intro files
  induction files with
  | nil => intro acc; simp [hashtableLoop]
  | cons f rest ih =>
      intro acc
      simp [hashtableLoop, ih, List.append_assoc]

/-- `hashtable` is `hashSlot` mapped over the files. -/
theorem hashtable_eq_map (fs : FS) (files : List String) :
    hashtable fs files = files.map (hashSlot fs) := by
  simp [hashtable, hashtableLoop_eq]

/-- Zipping a list with a map of itself pairs each element with its image. -/
theorem zip_self_map {α β : Type} (g : α → β) :
    ∀ l : List α, l.zip (l.map g) = l.map (fun x => (x, g x)) := by
  intro l
  induction l with
  | nil => rfl
  | cons x t ih => simp [List.zip_cons_cons, ih]

/-- The table built without pre-selection pairs each enumerated file
with its hash slot. -/
theorem create_table_false (fs : FS) (files : List String) :
    create_table fs files false = files.map (fun f => (f, hashSlot fs f)) := by
  simp [create_table, hashtable_eq_map, zip_self_map]

/-- The table built with pre-selection pairs each pre-selected file with
its hash slot. -/
theorem create_table_true (fs : FS) (files : List String) :
    create_table fs files true = (preselect fs files).map (fun f => (f, hashSlot fs f)) := by
  simp [create_table, hashtable_eq_map, zip_self_map]

/-- Inserting into a list is a permutation of consing. -/
theorem ordInsert_perm {α : Type} (le : α → α → Bool) (a : α) :
    ∀ l : List α, (ordInsert le a l).Perm (a :: l) := by
  intro l
  induction l with
  | nil => exact List.Perm.refl _
  | cons b t ih =>
      simp only [ordInsert]
      by_cases h : le a b
      · rw [if_pos h]
      · rw [if_neg h]
        exact (ih.cons b).trans (List.Perm.swap a b t)

/-- Insertion sort permutes its input. -/
theorem insSort_perm {α : Type} (le : α → α → Bool) :
    ∀ l : List α, (insSort le l).Perm l := by
  intro l
  induction l with
  | nil => exact List.Perm.refl _
  | cons b t ih => exact (ordInsert_perm le b (insSort le t)).trans (ih.cons b)

/-- Filtering commutes with mapping. -/
theorem filter_map_eq {α β : Type} (e : α → β) (p : β → Bool) :
    ∀ l : List α, (l.map e).filter p = (l.filter (fun x => p (e x))).map e := by
  intro l
  induction l with
  | nil => rfl
  | cons x t ih =>
      simp only [List.map_cons, List.filter_cons]
      by_cases h : p (e x)
      · rw [if_pos h, if_pos h, List.map_cons, ih]
      · rw [if_neg h, if_neg h, ih]

/-- `duplicated(keep=False)` filtering of a keyed table, pushed through
the map that builds the table. -/
theorem dup_map {β : Type} [DecidableEq β] (g : String → β) (l : List String) :
    dupKeepFalse Prod.snd (l.map (fun f => (f, g f))) =
      (l.filter (fun f => 2 ≤ l.countP (fun f2 => g f2 = g f))).map (fun f => (f, g f)) := by
  unfold dupKeepFalse
  rw [filter_map_eq]
  congr 1
  apply List.filter_congr
  intro x _
  have hc : List.countP (fun r2 => decide (r2.2 = g x)) (l.map (fun f => (f, g f)))
      = List.countP (fun f2 => decide (g f2 = g x)) l := List.countP_map _ _ _
  rw [hc]

/-- `preselect` keeps exactly the existing files whose size occurs at
least twice among existing files, in order. -/
theorem preselect_eq (fs : FS) (input_files : List String) :
    preselect fs input_files =
      (input_files.filter fs.isfile).filter
        (fun p => 2 ≤ (input_files.filter fs.isfile).countP
          (fun q => fs.size q = fs.size p)) := by
  simp only [preselect]
  rw [dup_map fs.size (input_files.filter fs.isfile)]
  rw [List.map_map]
  have hid : (Prod.fst ∘ fun f : String => (f, fs.size f)) = id := rfl
  rw [hid, List.map_id]

/-- Membership in the output of `list_all_duplicates`: exactly the table
rows whose hash occurs at least twice in the table. -/
theorem mem_list_all_duplicates (fs : FS) (files : List String) (fastscan : Bool)
    (r : String × String) :
    r ∈ list_all_duplicates fs files fastscan ↔
      r ∈ create_table fs files fastscan ∧
        2 ≤ (create_table fs files fastscan).countP (fun r2 => r2.2 = r.2) := by
  unfold list_all_duplicates sort_values_hash
  rw [(insSort_perm _ _).mem_iff]
  unfold dupKeepFalse
  rw [List.mem_filter]
  simp

/-- If a key occurs pairwise-distinctly in a list, each key value is
counted at most once. -/
theorem pairwise_key_countP_le_one {α β : Type} [DecidableEq β] (key : α → β) :
    ∀ l : List α, l.Pairwise (fun a b => key a ≠ key b) →
      ∀ p ∈ l, l.countP (fun q => key q = key p) ≤ 1 := by
  intro l
  induction l with
  | nil => intro _ p hp; simp at hp
  | cons a t ih =>
      intro hpw p hp
      rw [List.pairwise_cons] at hpw
      rw [List.countP_cons]
      rcases List.mem_cons.mp hp with rfl | hpt
      · have h0 : t.countP (fun q => key q = key p) = 0 := by
          rw [List.countP_eq_zero]
          intro q hq
          simp only [decide_eq_true_eq]
          exact fun he => (hpw.1 q hq) he.symm
        rw [h0]
        split <;> omega
      · have h1 : t.countP (fun q => key q = key p) ≤ 1 := ih hpw.2 p hpt
        have hne : ¬(key a = key p) := hpw.1 p hpt
        simp only [decide_eq_true_eq, if_neg hne]
        omega

/-! ## Claims -/

/-- Claim C1: for every readable file, `hashfile` returns the lowercase
hex-encoded SHA-256 digest of the file's entire byte content; reading in
64 KiB chunks and feeding each chunk into the incremental digest yields
the digest of the concatenation of all chunks, i.e. of the full
content, a 64-character lowercase-hex string. -/
theorem hashfile_returns_sha256_of_content (content : List Nat) :
    hashfile content 65536 = hexdigest (sha256 content) ∧
    (hashfile content 65536).length = 64 ∧
    (hashfile content 65536).data.all isLowerHex = true := by
  refine ⟨hashfile_eq_whole content, hashfile_length content, ?_⟩
  rw [List.all_eq_true]
  intro c hc
  rw [hashfile_eq_whole] at hc
  exact hexdigest_lower _ c hc

/-- Claim C2: the fingerprint depends only on the file's byte content,
never on the path or the filesystem snapshot: identical content at any
two paths yields identical fingerprints, and differing content yields
differing fingerprints under the collision-freeness assumption on the
two contents. -/
theorem hashfile_content_determinism (fs1 fs2 : FS) (p1 p2 : String) (c1 c2 : List Nat)
    (h1 : fs1.content p1 = some c1) (h2 : fs2.content p2 = some c2) :
    (c1 = c2 → hashSlot fs1 p1 = hashSlot fs2 p2) ∧
    (sha256 c1 ≠ sha256 c2 → hashSlot fs1 p1 ≠ hashSlot fs2 p2) := by
  have e1 : hashSlot fs1 p1 = hashfile c1 65536 := by unfold hashSlot; rw [h1]
  have e2 : hashSlot fs2 p2 = hashfile c2 65536 := by unfold hashSlot; rw [h2]
  rw [e1, e2]
  constructor
  · intro he
    rw [he]
  · intro hne hcontra
    rw [hashfile_eq_whole, hashfile_eq_whole] at hcontra
    exact hne (hexdigest_inj _ _ (sha256_lt256 c1) (sha256_lt256 c2) hcontra)

/-- A filesystem with two one-byte files of different content. -/
def fsTwo : FS :=
  { isfile := fun _ => true, size := fun _ => 0,
    content := fun p => if p = "a" then some [] else some [0] }

/-- Witness for C2 at a concrete input: the empty content and the
one-zero-byte content produce different fingerprints. -/
theorem hashfile_content_determinism_witness :
    fsTwo.content "a" = some [] ∧ fsTwo.content "b" = some [0] ∧
    hashSlot fsTwo "a" ≠ hashSlot fsTwo "b" :=
  ⟨rfl, rfl,
    (hashfile_content_determinism fsTwo fsTwo "a" "b" [] [0] rfl rfl).2 (by decide)⟩

/-- Claim C3: `list_all_duplicates` retains a record iff its fingerprint
occurs in at least two records of the table; records with the failure
sentinel are retained whenever at least two files failed to hash. -/
theorem list_all_duplicates_membership (fs : FS) (files : List String) (r : String × String) :
    (r ∈ list_all_duplicates fs files false ↔
      r ∈ create_table fs files false ∧
        2 ≤ (create_table fs files false).countP (fun r2 => r2.2 = r.2)) ∧
    (2 ≤ files.countP (fun f => (fs.content f).isNone) →
      ∀ f ∈ files, fs.content f = none →
        (f, sentinel) ∈ list_all_duplicates fs files false) := by
  constructor
  · exact mem_list_all_duplicates fs files false r
  · intro hcnt f hf hnone
    rw [mem_list_all_duplicates]
    constructor
    · rw [create_table_false]
      refine List.mem_map.mpr ⟨f, hf, ?_⟩
      simp [hashSlot, hnone]
    · rw [create_table_false]
      have hm : (files.map (fun f => (f, hashSlot fs f))).countP
          (fun r2 => r2.2 = (f, sentinel).2) =
          files.countP (fun g => hashSlot fs g = sentinel) := List.countP_map _ _ _
      rw [hm]
      refine le_trans hcnt (List.countP_mono_left ?_)
      intro x _ hx
      simp only [decide_eq_true_eq]
      simp only [Option.isNone_iff_eq_none, decide_eq_true_eq] at hx
      simp [hashSlot, hx]

/-- A filesystem on which no file can be read. -/
def fsNone : FS := { isfile := fun _ => true, size := fun _ => 0, content := fun _ => none }

/-- Witness for C3 at a concrete input: with two unreadable files both
sentinel records are retained. -/
theorem list_all_duplicates_membership_witness :
    2 ≤ ["a", "b"].countP (fun f => (fsNone.content f).isNone) ∧
    ("a", sentinel) ∈ list_all_duplicates fsNone ["a", "b"] false :=
  ⟨by decide,
    (list_all_duplicates_membership fsNone ["a", "b"] ("a", sentinel)).2 (by decide)
      "a" (by decide) (by decide)⟩

/-- Claim C6: `hashtable` returns one slot per input path, in order; a
readable file's slot is its digest, an unreadable file's slot is the
sentinel; a failure never aborts the remaining files; and the sentinel
differs from every digest. -/
theorem hashtable_slots (fs : FS) (files : List String) :
    hashtable fs files = files.map (hashSlot fs) ∧
    (hashtable fs files).length = files.length ∧
    (∀ i : Fin files.length, (hashtable fs files)[i.val]? =
      some (match fs.content (files.get i) with
            | some c => hashfile c 65536
            | none => sentinel)) ∧
    (∀ c : List Nat, hashfile c 65536 ≠ sentinel) := by
  refine ⟨hashtable_eq_map fs files, ?_, ?_, hashfile_ne_sentinel⟩
  · rw [hashtable_eq_map, List.length_map]
  · intro i
    rw [hashtable_eq_map]
    rw [List.getElem?_map, List.getElem?_eq_getElem i.isLt]
    rfl

/-- Claim C9: `preselect` drops paths that are not regular files, then
keeps exactly the surviving paths whose size occurs at least twice among
surviving paths; with pairwise distinct sizes the result is empty. -/
theorem preselect_shared_sizes (fs : FS) (input_files : List String) :
    preselect fs input_files =
      (input_files.filter fs.isfile).filter
        (fun p => 2 ≤ (input_files.filter fs.isfile).countP
          (fun q => fs.size q = fs.size p)) ∧
    ((input_files.filter fs.isfile).Pairwise (fun p q => fs.size p ≠ fs.size q) →
      preselect fs input_files = []) := by
  refine ⟨preselect_eq fs input_files, ?_⟩
  intro hpw
  rw [preselect_eq]
  rw [List.eq_nil_iff_forall_not_mem]
  intro p hp
  rw [List.mem_filter] at hp
  have hle := pairwise_key_countP_le_one fs.size _ hpw p hp.1
  simp only [decide_eq_true_eq] at hp
  omega

/-- A filesystem whose files have pairwise distinct sizes. -/
def fsSizes : FS :=
  { isfile := fun _ => true,
    size := fun p => if p = "a" then 1 else if p = "b" then 2 else 3,
    content := fun _ => none }

/-- Witness for C9 at a concrete input: three existing files with
pairwise distinct sizes are all dropped. -/
theorem preselect_shared_sizes_witness :
    (["a", "b", "c"].filter fsSizes.isfile).Pairwise
      (fun p q => fsSizes.size p ≠ fsSizes.size q) ∧
    preselect fsSizes ["a", "b", "c"] = [] :=
  ⟨by decide, (preselect_shared_sizes fsSizes ["a", "b", "c"]).2 (by decide)⟩

/-- Two decidable conjuncts combine into one decision. -/
theorem decide_and_eq_decide {a b c : Prop} [Decidable a] [Decidable b] [Decidable c]
    (h : (b ∧ c) ↔ a) : (decide b && decide c) = decide a := by
  by_cases hb : b <;> by_cases hc : c <;> by_cases ha : a <;> simp_all

/-- Claim C8: `find_duplicates` hashes the target alone, runs the
duplicate pipeline without pre-selection, and keeps exactly the rows
whose fingerprint equals the target's; when no second file shares the
target's content (and fingerprints determine content on the inputs at
hand), the result is empty. -/
theorem find_duplicates_filters_target (fs : FS) (target : String) (files : List String) :
    find_duplicates fs target files =
      (list_all_duplicates fs files false).filter (fun r => r.2 = hashSlot fs target) ∧
    (files.countP (fun f => fs.content f = fs.content target) ≤ 1 →
      (∀ f ∈ files, hashSlot fs f = hashSlot fs target →
        fs.content f = fs.content target) →
      find_duplicates fs target files = []) := by
  have ht : hashtable fs [target] = [hashSlot fs target] := by
    rw [hashtable_eq_map]
    rfl
  have hmain : find_duplicates fs target files =
      (list_all_duplicates fs files false).filter (fun r => r.2 = hashSlot fs target) := by
    simp only [find_duplicates, ht]
  refine ⟨hmain, ?_⟩
  intro hu hinj
  rw [hmain, List.eq_nil_iff_forall_not_mem]
  intro r hr
  rw [List.mem_filter] at hr
  obtain ⟨hmem, hhash⟩ := hr
  rw [mem_list_all_duplicates] at hmem
  obtain ⟨-, hcnt⟩ := hmem
  rw [create_table_false] at hcnt
  have hc2 : (files.map fun f => (f, hashSlot fs f)).countP (fun r2 => r2.2 = r.2) =
      files.countP (fun f => hashSlot fs f = r.2) := List.countP_map _ _ _
  rw [hc2] at hcnt
  simp only [decide_eq_true_eq] at hhash
  rw [hhash] at hcnt
  have hle : files.countP (fun f => hashSlot fs f = hashSlot fs target) ≤
      files.countP (fun f => fs.content f = fs.content target) := by
    refine List.countP_mono_left ?_
    intro x hx hpx
    simp only [decide_eq_true_eq] at hpx ⊢
    exact hinj x hx hpx
  omega

/-- A filesystem where the target file's content is unique. -/
def fsFind : FS :=
  { isfile := fun _ => true, size := fun _ => 0,
    content := fun p => if p = "t" then some [1] else some [2] }

/-- Witness for C8 at a concrete input: a target with unique content has
no reported duplicates. -/
theorem find_duplicates_filters_target_witness :
    ["x"].countP (fun f => fsFind.content f = fsFind.content "t") ≤ 1 ∧
    find_duplicates fsFind "t" ["x"] = [] :=
  ⟨by decide, (find_duplicates_filters_target fsFind "t" ["x"]).2 (by decide) (by decide)⟩

/-- A filesystem with two unreadable files of distinct reported sizes. -/
def fsC4 : FS :=
  { isfile := fun _ => true, size := fun p => if p = "a" then 1 else 2,
    content := fun _ => none }

/-- Counterexample to C4 as stated: with two unreadable files of
distinct sizes, the full scan reports both sentinel records as
duplicates while the pre-selected scan drops both, so the two runs
differ. -/
theorem preselection_changes_results :
    list_all_duplicates fsC4 ["a", "b"] true ≠ list_all_duplicates fsC4 ["a", "b"] false := by
  decide

/-- Amended C4: when every enumerated file is a readable regular file,
reported sizes agree with content lengths, and equal fingerprints imply
equal content among the enumerated files, pre-selection does not change
the duplicate report. -/
theorem preselection_sound_for_readable (fs : FS) (files : List String)
    (hfile : ∀ f ∈ files, fs.isfile f = true)
    (hread : ∀ f ∈ files, (fs.content f).isSome = true)
    (hsize : ∀ f ∈ files, ∀ c, fs.content f = some c → fs.size f = c.length)
    (hinj : ∀ f ∈ files, ∀ g ∈ files,
      hashSlot fs f = hashSlot fs g → fs.content f = fs.content g) :
    list_all_duplicates fs files true = list_all_duplicates fs files false := by
  unfold list_all_duplicates
  congr 1
  rw [create_table_true, create_table_false]
  rw [dup_map (hashSlot fs) (preselect fs files), dup_map (hashSlot fs) files]
  congr 1
  rw [preselect_eq fs files, List.filter_eq_self.mpr hfile]
  rw [List.filter_filter]
  apply List.filter_congr
  intro f hf
  apply decide_and_eq_decide
  constructor
  · rintro ⟨h1, -⟩
    exact le_trans h1 (List.Sublist.countP_le _ (List.filter_sublist files))
  · intro h
    have hsz : ∀ g ∈ files, hashSlot fs g = hashSlot fs f → fs.size g = fs.size f := by
      intro g hg he
      have hcont := hinj g hg f hf he
      obtain ⟨cf, hcf⟩ := Option.isSome_iff_exists.mp (hread f hf)
      have hcg : fs.content g = some cf := by rw [hcont, hcf]
      rw [hsize g hg cf hcg, hsize f hf cf hcf]
    have hshared : 2 ≤ files.countP (fun q => fs.size q = fs.size f) := by
      refine le_trans h (List.countP_mono_left ?_)
      intro g hg hgp
      simp only [decide_eq_true_eq] at hgp ⊢
      exact hsz g hg hgp
    refine ⟨?_, hshared⟩
    have heq : (files.filter
          (fun p => 2 ≤ files.countP (fun q => fs.size q = fs.size p))).countP
            (fun g => hashSlot fs g = hashSlot fs f) =
        files.countP (fun g => hashSlot fs g = hashSlot fs f) := by
      rw [List.countP_filter]
      apply Nat.le_antisymm
      · refine List.countP_mono_left ?_
        intro g _ hgp
        rw [Bool.and_eq_true] at hgp
        exact hgp.1
      · refine List.countP_mono_left ?_
        intro g hg hgp
        rw [Bool.and_eq_true]
        refine ⟨hgp, ?_⟩
        simp only [decide_eq_true_eq] at hgp ⊢
        have hgf : fs.size g = fs.size f := hsz g hg hgp
        have hfun : (fun q => decide (fs.size q = fs.size g)) =
            (fun q => decide (fs.size q = fs.size f)) := by
          funext q
          rw [hgf]
        rw [hfun]
        simpa using hshared
    rw [heq]
    exact h

/-- A filesystem whose two files are readable with identical content. -/
def fsDup : FS :=
  { isfile := fun _ => true, size := fun _ => 1, content := fun _ => some [5] }

/-- Witness for amended C4 at a concrete input: with two readable
identical files, the fast and the full scan agree. -/
theorem preselection_sound_for_readable_witness :
    list_all_duplicates fsDup ["a", "b"] true = list_all_duplicates fsDup ["a", "b"] false :=
  preselection_sound_for_readable fsDup ["a", "b"] (by decide) (by decide)
    (by
      intro f _ c hc
      injection hc with h
      rw [← h]
      rfl)
    (by intro f _ g _ _; rfl)

/-- Repetitions of an already-seen file are skipped by the
de-duplication loop. -/
theorem dropDupFileLoop_skip (seen : List String) (r : String × String)
    (hr : r.1 ∈ seen) :
    ∀ (k : Nat) (rest : List (String × String)),
      dropDupFileLoop seen (List.replicate k r ++ rest) = dropDupFileLoop seen rest := by
  intro k
  induction k with
  | zero => intro rest; rfl
  | succ n ih =>
      intro rest
      rw [List.replicate_succ, List.cons_append]
      simp only [dropDupFileLoop, if_pos hr]
      exact ih rest

/-- De-duplicating a row-repetition list built over rows with pairwise
distinct files keeps exactly one copy of each row with a positive
repetition count, in order. -/
theorem dropDupFileLoop_flat (n : String × String → Nat) :
    ∀ (t : List (String × String)) (seen : List String),
      (∀ r ∈ t, r.1 ∉ seen) → List.Pairwise (fun a b : String × String => a.1 ≠ b.1) t →
      dropDupFileLoop seen (t.flatMap (fun r => List.replicate (n r) r)) =
        t.filter (fun r => 0 < n r) := by
  intro t
  induction t with
  | nil => intro seen _ _; rfl
  | cons r t ih =>
      intro seen hseen hpw
      rw [List.pairwise_cons] at hpw
      rw [List.flatMap_cons, List.filter_cons]
      cases hn : n r with
      | zero =>
          rw [List.replicate]
          rw [List.nil_append]
          rw [ih seen (fun s hs => hseen s (List.mem_cons_of_mem r hs)) hpw.2]
          simp [hn]
      | succ k =>
          rw [List.replicate_succ, List.cons_append]
          have hr : r.1 ∉ seen := hseen r (List.mem_cons_self r t)
          simp only [dropDupFileLoop, if_neg hr]
          rw [dropDupFileLoop_skip (r.1 :: seen) r (List.mem_cons_self _ _) k _]
          rw [ih (r.1 :: seen) ?_ hpw.2]
          · simp [hn]
          · intro s hs
            rw [List.mem_cons]
            push_neg
            exact ⟨fun he => absurd he.symm (hpw.1 s hs), hseen s (List.mem_cons_of_mem r hs)⟩

/-- Claim C5: `compare_folders` returns exactly the compare-root records
whose fingerprint occurs somewhere in the reference-root table, each
compare-root file once, and never a reference-root record. -/
theorem compare_folders_matches (fs : FS) (refFiles cmpFiles : List String)
    (hnd : cmpFiles.Nodup) :
    compare_folders fs refFiles cmpFiles =
      (create_table fs cmpFiles false).filter
        (fun r => 0 < (create_table fs refFiles false).countP (fun s => s.2 = r.2)) ∧
    ∀ r ∈ compare_folders fs refFiles cmpFiles, r ∈ create_table fs cmpFiles false := by
  have hpw : List.Pairwise (fun a b : String × String => a.1 ≠ b.1)
      (create_table fs cmpFiles false) := by
    rw [create_table_false, List.pairwise_map]
    exact hnd
  have hmain : compare_folders fs refFiles cmpFiles =
      (create_table fs cmpFiles false).filter
        (fun r => 0 < (create_table fs refFiles false).countP (fun s => s.2 = r.2)) := by
    simp only [compare_folders, drop_duplicates_file]
    exact dropDupFileLoop_flat
      (fun r => (create_table fs refFiles false).countP (fun s => s.2 = r.2))
      (create_table fs cmpFiles false) [] (by simp) hpw
  refine ⟨hmain, ?_⟩
  intro r hr
  rw [hmain] at hr
  exact (List.mem_filter.mp hr).1

/-- A filesystem for the cross-folder witness: `d` has unique content,
everything else holds the same bytes. -/
def fsCmp : FS :=
  { isfile := fun _ => true, size := fun _ => 0,
    content := fun p => if p = "d" then some [9] else some [7] }

/-- Witness for C5 at a concrete input. -/
theorem compare_folders_matches_witness :
    (["c", "d"] : List String).Nodup ∧
    compare_folders fsCmp ["r"] ["c", "d"] =
      (create_table fsCmp ["c", "d"] false).filter
        (fun r => 0 < (create_table fsCmp ["r"] false).countP (fun s => s.2 = r.2)) :=
  ⟨by decide, (compare_folders_matches fsCmp ["r"] ["c", "d"] (by decide)).1⟩

/-! ## Supporting lemmas: path normalization -/

/-- `splitSlash` never returns the empty list. -/
theorem splitSlash_ne_nil : ∀ s : List Char, splitSlash s ≠ [] := by
  intro s
  induction s with
  | nil => simp [splitSlash]
  | cons c r ih =>
      simp only [splitSlash]
      by_cases hc : c = '/'
      · simp [hc]
      · rw [if_neg hc]
        cases hsp : splitSlash r with
        | nil => simp
        | cons h t => simp

/-- Components produced by `splitSlash` contain no separator. -/
theorem splitSlash_slashless : ∀ s : List Char, ∀ x ∈ splitSlash s, '/' ∉ x := by
  intro s
  induction s with
  | nil =>
      intro x hx
      simp [splitSlash] at hx
      simp [hx]
  | cons c r ih =>
      intro x hx
      simp only [splitSlash] at hx
      by_cases hc : c = '/'
      · rw [if_pos hc] at hx
        rcases List.mem_cons.mp hx with rfl | hx2
        · simp
        · exact ih x hx2
      · rw [if_neg hc] at hx
        cases hsp : splitSlash r with
        | nil => exact absurd hsp (splitSlash_ne_nil r)
        | cons h t =>
            rw [hsp] at hx
            rcases List.mem_cons.mp hx with rfl | hx2
            · intro hmem
              rcases List.mem_cons.mp hmem with he | hmem2
              · exact hc he.symm
              · exact ih h (hsp ▸ List.mem_cons_self h t) hmem2
            · exact ih x (hsp ▸ List.mem_cons_of_mem h hx2)

/-- Splitting after a leading separator peels one empty component. -/
theorem splitSlash_cons_slash (z : List Char) : splitSlash ('/' :: z) = [] :: splitSlash z := by
  simp [splitSlash]

/-- Splitting a separator-free prefix followed by a separator peels the
prefix as one component. -/
theorem splitSlash_append : ∀ c z : List Char, '/' ∉ c →
    splitSlash (c ++ '/' :: z) = c :: splitSlash z := by
  intro c
  induction c with
  | nil => intro z _; simp [splitSlash_cons_slash]
  | cons a c ih =>
      intro z hsl
      have ha : a ≠ '/' := fun he => hsl (he ▸ List.mem_cons_self a c)
      have hc : '/' ∉ c := fun hm => hsl (List.mem_cons_of_mem a hm)
      rw [List.cons_append]
      simp only [splitSlash, if_neg (fun he => ha he)]
      rw [ih z hc]

/-- Splitting a separator-free string yields a single component. -/
theorem splitSlash_single : ∀ c : List Char, '/' ∉ c → splitSlash c = [c] := by
  intro c
  induction c with
  | nil => intro _; rfl
  | cons a c ih =>
      intro hsl
      have ha : a ≠ '/' := fun he => hsl (he ▸ List.mem_cons_self a c)
      have hc : '/' ∉ c := fun hm => hsl (List.mem_cons_of_mem a hm)
      simp only [splitSlash, if_neg (fun he => ha he)]
      rw [ih hc]

/-- `splitSlash` inverts `joinSlash` on nonempty separator-free
component lists. -/
theorem splitSlash_joinSlash : ∀ l : List (List Char), l ≠ [] → (∀ x ∈ l, '/' ∉ x) →
    splitSlash (joinSlash l) = l := by
  intro l
  induction l with
  | nil => intro h _; exact absurd rfl h
  | cons x t ih =>
      intro _ hsl
      cases t with
      | nil => exact splitSlash_single x (hsl x (List.mem_cons_self x []))
      | cons y t2 =>
          rw [joinSlash]
          rw [splitSlash_append x _ (hsl x (List.mem_cons_self x (y :: t2)))]
          rw [ih (by simp) (fun z hz => hsl z (List.mem_cons_of_mem x hz))]

/-- Every output component of `normComps` comes from the input or the
accumulator. -/
theorem normComps_subset (hi : Bool) :
    ∀ (comps acc : List (List Char)) (x : List Char),
      x ∈ normComps hi comps acc → x ∈ comps ∨ x ∈ acc := by
  intro comps
  induction comps with
  | nil =>
      intro acc x hx
      rw [normComps] at hx
      exact Or.inr (List.mem_reverse.mp hx)
  | cons comp rest ih =>
      intro acc x hx
      rw [normComps] at hx
      by_cases h1 : comp = [] ∨ comp = ['.']
      · rw [if_pos h1] at hx
        rcases ih acc x hx with h | h
        · exact Or.inl (List.mem_cons_of_mem comp h)
        · exact Or.inr h
      · rw [if_neg h1] at hx
        by_cases h2 : comp ≠ ['.', '.'] ∨ (hi = false ∧ acc = []) ∨ acc.head? = some ['.', '.']
        · rw [if_pos h2] at hx
          rcases ih (comp :: acc) x hx with h | h
          · exact Or.inl (List.mem_cons_of_mem comp h)
          · rcases List.mem_cons.mp h with rfl | h
            · exact Or.inl (List.mem_cons_self x rest)
            · exact Or.inr h
        · rw [if_neg h2] at hx
          rcases ih acc.tail x hx with h | h
          · exact Or.inl (List.mem_cons_of_mem comp h)
          · cases hacc : acc with
            | nil => rw [hacc] at h; simp at h
            | cons a t =>
                rw [hacc, List.tail_cons] at h
                exact Or.inr (List.mem_cons_of_mem a h)

/-- A component that survives normalization of an absolute path is a
real name: nonempty and neither `.` nor `..`. -/
def plainComp (x : List Char) : Prop := x ≠ [] ∧ x ≠ ['.'] ∧ x ≠ ['.', '.']

/-- On an absolute path (`hasInit = true`), `normComps` only ever keeps
real name components. -/
theorem normComps_plain :
    ∀ (comps acc : List (List Char)), (∀ x ∈ acc, plainComp x) →
      ∀ x ∈ normComps true comps acc, plainComp x := by
  intro comps
  induction comps with
  | nil =>
      intro acc hacc x hx
      rw [normComps] at hx
      exact hacc x (List.mem_reverse.mp hx)
  | cons comp rest ih =>
      intro acc hacc x hx
      rw [normComps] at hx
      by_cases h1 : comp = [] ∨ comp = ['.']
      · rw [if_pos h1] at hx
        exact ih acc hacc x hx
      · rw [if_neg h1] at hx
        by_cases h2 : comp ≠ ['.', '.'] ∨ (true = false ∧ acc = []) ∨ acc.head? = some ['.', '.']
        · rw [if_pos h2] at hx
          refine ih (comp :: acc) ?_ x hx
          intro y hy
          rcases List.mem_cons.mp hy with rfl | hy2
          · push_neg at h1
            refine ⟨h1.1, h1.2, ?_⟩
            rcases h2 with h2 | h2 | h2
            · exact h2
            · exact absurd h2.1 (by simp)
            · cases hacc2 : acc with
              | nil => rw [hacc2] at h2; simp at h2
              | cons a t =>
                  rw [hacc2] at h2
                  simp only [List.head?_cons, Option.some.injEq] at h2
                  exact absurd h2 (hacc a (hacc2 ▸ List.mem_cons_self a t)).2.2
          · exact hacc y hy2
        · rw [if_neg h2] at hx
          refine ih acc.tail ?_ x hx
          intro y hy
          cases hacc2 : acc with
          | nil => rw [hacc2] at hy; simp at hy
          | cons a t =>
              rw [hacc2, List.tail_cons] at hy
              exact hacc y (hacc2 ▸ List.mem_cons_of_mem a hy)

/-- `normComps` passes a list of real name components through
unchanged. -/
theorem normComps_passthrough (hi : Bool) :
    ∀ (comps acc : List (List Char)), (∀ x ∈ comps, plainComp x) →
      normComps hi comps acc = acc.reverse ++ comps := by
  intro comps
  induction comps with
  | nil => intro acc _; rw [normComps, List.append_nil]
  | cons comp rest ih =>
      intro acc hp
      have hcomp := hp comp (List.mem_cons_self comp rest)
      rw [normComps]
      rw [if_neg (by push_neg; exact ⟨hcomp.1, hcomp.2.1⟩)]
      rw [if_pos (Or.inl hcomp.2.2)]
      rw [ih (comp :: acc) (fun y hy => hp y (List.mem_cons_of_mem comp hy))]
      simp

/-- Leading empty components are skipped. -/
theorem normComps_nil_head (hi : Bool) (rest : List (List Char)) (acc : List (List Char)) :
    normComps hi ([] :: rest) acc = normComps hi rest acc := by
  rw [normComps, if_pos (Or.inl rfl)]

/-- Any number of leading empty components is skipped. -/
theorem normComps_drop_nil (hi : Bool) :
    ∀ (k : Nat) (comps acc : List (List Char)),
      normComps hi (List.replicate k [] ++ comps) acc = normComps hi comps acc := by
  intro k
  induction k with
  | zero => intro comps acc; rfl
  | succ n ih =>
      intro comps acc
      rw [List.replicate_succ, List.cons_append, normComps_nil_head, ih]

/-- An absolute path has one or two initial slashes. -/
theorem initialSlashes_cases (s : List Char) (h : isabs s = true) :
    initialSlashes s = 1 ∨ initialSlashes s = 2 := by
  have h' : s.take 1 = ['/'] := by simpa [isabs] using h
  unfold initialSlashes
  rw [if_pos h']
  by_cases h2 : s.take 2 = ['/', '/'] ∧ ¬s.take 3 = ['/', '/', '/']
  · rw [if_pos h2]; exact Or.inr rfl
  · rw [if_neg h2]; exact Or.inl rfl

/-- Decomposition of `normpath` on an absolute path: the initial
slashes followed by the joined normalized components. -/
theorem normpath_abs_decomp (s : List Char) (h : isabs s = true) :
    normpath s = List.replicate (initialSlashes s) '/' ++
      joinSlash (normComps true (splitSlash s) []) := by
  rcases initialSlashes_cases s h with h1 | h1 <;>
    (simp only [normpath, h1]; rw [if_neg (by simp)]; rfl)

/-- A path starting with initial slashes is absolute. -/
theorem isabs_replicate_append (ini : Nat) (hini : ini = 1 ∨ ini = 2) (x : List Char) :
    isabs (List.replicate ini '/' ++ x) = true := by
  rcases hini with rfl | rfl <;> simp [isabs, List.replicate]

/-- `normpath` preserves absoluteness. -/
theorem isabs_normpath (s : List Char) (h : isabs s = true) : isabs (normpath s) = true := by
  rw [normpath_abs_decomp s h]
  exact isabs_replicate_append _ (initialSlashes_cases s h) _

/-- The decomposed form of a normalized absolute path is a fixed point
of `normpath`. -/
theorem normpath_fixed (ini : Nat) (hini : ini = 1 ∨ ini = 2) (C : List (List Char))
    (hplain : ∀ x ∈ C, plainComp x) (hsl : ∀ x ∈ C, '/' ∉ x) :
    normpath (List.replicate ini '/' ++ joinSlash C) =
      List.replicate ini '/' ++ joinSlash C := by
  have hsplit : splitSlash (List.replicate ini '/' ++ joinSlash C) =
      List.replicate ini [] ++ splitSlash (joinSlash C) := by
    rcases hini with rfl | rfl
    · rw [show (List.replicate 1 '/' : List Char) = ['/'] from rfl, List.singleton_append,
        splitSlash_cons_slash]
      rfl
    · rw [show (List.replicate 2 '/' : List Char) = ['/', '/'] from rfl]
      rw [List.cons_append, List.cons_append, List.nil_append]
      rw [splitSlash_cons_slash, splitSlash_cons_slash]
      rfl
  have hcomps : normComps true (splitSlash (List.replicate ini '/' ++ joinSlash C)) [] = C := by
    rw [hsplit]
    cases C with
    | nil =>
        rw [show joinSlash [] = [] from rfl, show splitSlash [] = [[]] from rfl]
        rw [normComps_drop_nil, normComps_nil_head]
        rfl
    | cons c0 C2 =>
        rw [splitSlash_joinSlash _ (by simp) hsl]
        rw [normComps_drop_nil]
        rw [normComps_passthrough true _ [] hplain]
        rfl
  have hini_r : initialSlashes (List.replicate ini '/' ++ joinSlash C) = ini := by
    cases C with
    | nil =>
        rcases hini with rfl | rfl
        · decide
        · decide
    | cons c0 C2 =>
        have hc0 := hplain c0 (List.mem_cons_self c0 C2)
        obtain ⟨a, c0t, rfl⟩ : ∃ a c0t, c0 = a :: c0t := by
          cases c0 with
          | nil => exact absurd rfl hc0.1
          | cons a t => exact ⟨a, t, rfl⟩
        have ha : a ≠ '/' := by
          intro he
          exact (hsl _ (List.mem_cons_self _ _)) (he ▸ List.mem_cons_self a c0t)
        obtain ⟨z, hz⟩ : ∃ z, joinSlash ((a :: c0t) :: C2) = a :: (c0t ++ z) := by
          cases C2 with
          | nil => exact ⟨[], by simp [joinSlash]⟩
          | cons y t => exact ⟨'/' :: joinSlash (y :: t), by simp [joinSlash]⟩
        rw [hz]
        rcases hini with rfl | rfl
        · simp [initialSlashes, List.replicate, ha]
        · simp [initialSlashes, List.replicate, ha]
  have hbool : (ini != 0) = true := by
    rcases hini with rfl | rfl <;> rfl
  simp only [normpath, hini_r, hbool, hcomps]
  rw [if_neg (by rcases hini with rfl | rfl <;> simp)]

/-- `normpath` is idempotent on absolute paths. -/
theorem normpath_idem_abs (s : List Char) (h : isabs s = true) :
    normpath (normpath s) = normpath s := by
  have hplain : ∀ x ∈ normComps true (splitSlash s) [], plainComp x :=
    normComps_plain (splitSlash s) [] (by simp)
  have hsl : ∀ x ∈ normComps true (splitSlash s) [], '/' ∉ x := by
    intro x hx
    rcases normComps_subset true (splitSlash s) [] x hx with h1 | h1
    · exact splitSlash_slashless s x h1
    · simp at h1
  rw [normpath_abs_decomp s h]
  exact normpath_fixed (initialSlashes s) (initialSlashes_cases s h) _ hplain hsl

/-- Appending to an absolute path keeps it absolute. -/
theorem isabs_append (a x : List Char) (ha : isabs a = true) : isabs (a ++ x) = true := by
  cases a with
  | nil => simp [isabs] at ha
  | cons c t =>
      simp [isabs] at ha ⊢
      exact ha

/-- Joining any suffix onto an absolute working directory is absolute. -/
theorem isabs_pjoin (a b : List Char) (ha : isabs a = true) : isabs (pjoin a b) = true := by
  unfold pjoin
  by_cases hb : isabs b
  · rw [if_pos hb]; exact hb
  · rw [if_neg hb]
    by_cases h2 : a = [] ∨ a.getLast? = some '/'
    · rw [if_pos h2]; exact isabs_append a b ha
    · rw [if_neg h2]; exact isabs_append a ('/' :: b) ha

/-- `abspath` of an already absolute path just normalizes it. -/
theorem abspath_of_abs (cwd s : List Char) (hs : isabs s = true) :
    abspath cwd s = normpath s := by
  unfold abspath
  rw [if_pos hs]

/-- With an absolute working directory, `abspath` returns an absolute
path. -/
theorem isabs_abspath (cwd s : List Char) (hcwd : isabs cwd = true) :
    isabs (abspath cwd s) = true := by
  unfold abspath
  by_cases hs : isabs s
  · rw [if_pos hs]; exact isabs_normpath s hs
  · rw [if_neg hs]; exact isabs_normpath _ (isabs_pjoin cwd s hcwd)

/-- With an absolute working directory, an `abspath` result is a
`normpath` fixed point. -/
theorem normpath_abspath (cwd s : List Char) (hcwd : isabs cwd = true) :
    normpath (abspath cwd s) = abspath cwd s := by
  unfold abspath
  by_cases hs : isabs s
  · rw [if_pos hs]; exact normpath_idem_abs s hs
  · rw [if_neg hs]; exact normpath_idem_abs _ (isabs_pjoin cwd s hcwd)

/-- On the modelled POSIX system, the separator replacement is the
identity. -/
theorem pyReplaceSlash_id (s : List Char) : pyReplaceSlash s = s := by
  unfold pyReplaceSlash
  have hfun : (fun c : Char => if c = '/' then os_sep else c) = fun c : Char => c := by
    funext c
    by_cases hc : c = '/'
    · rw [if_pos hc, hc]; rfl
    · rw [if_neg hc]
  rw [hfun]
  exact List.map_id s

/-- Claim C10: `format_path` is idempotent — normalizing an already
normalized path changes nothing, so every pipeline entry point operates
on a normalization fixed point (the working directory reported by the
OS is always absolute). -/
theorem format_path_idempotent (cwd p : List Char) (hcwd : isabs cwd = true) :
    format_path cwd (format_path cwd p) = format_path cwd p := by
  unfold format_path
  rw [pyReplaceSlash_id (abspath cwd (pyReplaceSlash p))]
  rw [abspath_of_abs cwd _ (isabs_abspath cwd (pyReplaceSlash p) hcwd)]
  exact normpath_abspath cwd (pyReplaceSlash p) hcwd

/-- Witness for C10 at a concrete input. -/
theorem format_path_idempotent_witness :
    isabs "/home/u".data = true ∧
    format_path "/home/u".data (format_path "/home/u".data "a/../b//c/".data) =
      format_path "/home/u".data "a/../b//c/".data :=
  ⟨by decide, format_path_idempotent "/home/u".data "a/../b//c/".data (by decide)⟩
